import Mathlib

/-
  Verification development for the curated-podcast-generator repository.

  Shallow embedding of the two core modules:
    * src/dedup_articles.py   (normalize_title, title_similarity via
      difflib.SequenceMatcher with isjunk=None, deduplicate_articles)
    * src/psa_selector.py     (find_active_events, match_event_to_roster,
      round_robin_select, select_psa)

  Python strings are modelled as Lean String / List Char; Python floats
  produced by difflib's ratio are modelled as exact rationals (the repo
  only compares ratios at the threshold 0.70 = 7/10, where the float and
  the rational computation agree for all realistic string lengths);
  Python dicts are modelled as insertion-ordered association lists; file
  I/O (loading configs, loading/saving rotation state) is modelled by
  passing the loaded values as explicit parameters and returning the
  state that would be written.
-/

namespace CPG

/-! ### difflib.SequenceMatcher (Python 3 stdlib), specialized to isjunk=None

The repo calls `SequenceMatcher(None, norm1, norm2).ratio()`.  We embed the
stdlib algorithm: `__chain_b` (the b2j index with the autojunk purge of
popular elements; `bjunk` is empty because `isjunk is None`, so it is kept
as a predicate parameter instantiated with the constantly-false function),
`find_longest_match` (the j2len dynamic-programming loop plus the four
extension while-loops), the recursive block decomposition of
`get_matching_blocks` (only the total size of the matching blocks is
needed for `ratio`; the final sort/collapse steps of `get_matching_blocks`
do not change that total), and `_calculate_ratio`. -/

/-- Indices of occurrences of `c` in `b`, ascending: the list `b2j[c]`
built by `__chain_b` before any purge. -/
def occurrences (c : Char) (b : List Char) : List Nat :=
  (List.range b.length).filter (fun j => b.getD j ' ' = c)

/-- The `b2j` mapping of `__chain_b` with `isjunk=None`: occurrence lists,
with "popular" elements purged when autojunk applies (`len(b) >= 200` and
the element occurs more than `len(b) // 100 + 1` times). -/
def b2jFun (autojunk : Bool) (b : List Char) (c : Char) : List Nat :=
  if autojunk ∧ 200 ≤ b.length ∧ b.length / 100 + 1 < (occurrences c b).length
  then [] else occurrences c b

/-- Inner loop of `find_longest_match`: for one `i`, walk the candidate
`j` positions (already range-restricted), building `newj2len` from the
previous iteration's `j2len` and updating the best block.  `j2len.get(j-1, 0)`
at `j = 0` reads Python's key `-1`, hence the explicit `j = 0` guard. -/
def innerLoop (j2lenOld : Nat → Nat) (i : Nat) :
    List Nat → (Nat → Nat) → Nat × Nat × Nat → ((Nat → Nat) × (Nat × Nat × Nat))
  | [], newj2len, best => (newj2len, best)
  | j :: js, newj2len, best =>
      let k := (if j = 0 then 0 else j2lenOld (j - 1)) + 1
      let newj2len' : Nat → Nat := fun x => if x = j then k else newj2len x
      let best' := if best.2.2 < k then (i + 1 - k, j + 1 - k, k) else best
      innerLoop j2lenOld i js newj2len' best'

/-- Outer loop of `find_longest_match` over `i ∈ range(alo, ahi)`.
The candidate `j` list is `b2j.get(a[i], [])` with `continue` on `j < blo`
and `break` on `j >= bhi`; since occurrence lists are ascending this is
`takeWhile (· < bhi)` then `filter (blo ≤ ·)`. -/
def outerLoop (a : List Char) (b2j : Char → List Nat) (blo bhi : Nat) :
    List Nat → (Nat → Nat) → Nat × Nat × Nat → Nat × Nat × Nat
  | [], _, best => best
  | i :: is, j2len, best =>
      let js := ((b2j (a.getD i ' ')).takeWhile (fun j => j < bhi)).filter
        (fun j => blo ≤ j)
      let r := innerLoop j2len i js (fun _ => 0) best
      outerLoop a b2j blo bhi is r.1 r.2

/-- One of the two backward extension while-loops of `find_longest_match`
(`junkFlag = false` for the non-junk loop, `true` for the junk loop);
fuel-driven, called with fuel `besti`, which bounds the iteration count
since `besti` strictly decreases and the guard needs `alo < besti`. -/
def extendLow (a b : List Char) (bjunk : Char → Bool) (junkFlag : Bool)
    (alo blo : Nat) : Nat → Nat × Nat × Nat → Nat × Nat × Nat
  | 0, st => st
  | fuel + 1, (bi, bj, bs) =>
      if alo < bi ∧ blo < bj ∧ bjunk (b.getD (bj - 1) ' ') = junkFlag ∧
          a.getD (bi - 1) ' ' = b.getD (bj - 1) ' ' then
        extendLow a b bjunk junkFlag alo blo fuel (bi - 1, bj - 1, bs + 1)
      else (bi, bj, bs)

/-- One of the two forward extension while-loops of `find_longest_match`;
fuel-driven, called with fuel `ahi`, which bounds the iteration count since
`besti + bestsize` strictly increases and the guard needs it `< ahi`. -/
def extendHigh (a b : List Char) (bjunk : Char → Bool) (junkFlag : Bool)
    (ahi bhi : Nat) : Nat → Nat × Nat × Nat → Nat × Nat × Nat
  | 0, st => st
  | fuel + 1, (bi, bj, bs) =>
      if bi + bs < ahi ∧ bj + bs < bhi ∧ bjunk (b.getD (bj + bs) ' ') = junkFlag ∧
          a.getD (bi + bs) ' ' = b.getD (bj + bs) ' ' then
        extendHigh a b bjunk junkFlag ahi bhi fuel (bi, bj, bs + 1)
      else (bi, bj, bs)

/-- Embeds `SequenceMatcher.find_longest_match(alo, ahi, blo, bhi)`:
the j2len loop, then the four extension loops (non-junk low/high, junk
low/high). -/
def find_longest_match (a b : List Char) (bjunk : Char → Bool)
    (b2j : Char → List Nat) (alo ahi blo bhi : Nat) : Nat × Nat × Nat :=
  let best0 := outerLoop a b2j blo bhi (List.range' alo (ahi - alo))
    (fun _ => 0) (alo, blo, 0)
  let best1 := extendLow a b bjunk false alo blo best0.1 best0
  let best2 := extendHigh a b bjunk false ahi bhi ahi best1
  let best3 := extendLow a b bjunk true alo blo best2.1 best2
  extendHigh a b bjunk true ahi bhi ahi best3

/-- Total size of the matching blocks produced by the recursive window
decomposition of `get_matching_blocks` (`matching_blocks` sort and the
adjacent-block collapse preserve this total, which is all `ratio` reads).
Fuel-driven: every recursive window is a strict sub-range of `[alo, ahi)`,
so fuel `a.length + 1` always suffices for the top-level call. -/
def matchesTotal (a b : List Char) (bjunk : Char → Bool)
    (b2j : Char → List Nat) : Nat → Nat → Nat → Nat → Nat → Nat
  | 0, _, _, _, _ => 0
  | fuel + 1, alo, ahi, blo, bhi =>
      let m := find_longest_match a b bjunk b2j alo ahi blo bhi
      let i := m.1
      let j := m.2.1
      let k := m.2.2
      if k = 0 then 0
      else
        k + (if alo < i ∧ blo < j then matchesTotal a b bjunk b2j fuel alo i blo j else 0)
          + (if i + k < ahi ∧ j + k < bhi then
              matchesTotal a b bjunk b2j fuel (i + k) ahi (j + k) bhi else 0)

/-- Embeds `SequenceMatcher(None, a, b).ratio()` as an exact rational:
`_calculate_ratio(matches, len(a) + len(b))`, which returns `1.0` when both
sequences are empty.  `autojunk` defaults to `True`; `isjunk=None` makes
the junk predicate constantly false. -/
def ratioQ (a b : List Char) : ℚ :=
  let b2j := b2jFun true b
  let total := matchesTotal a b (fun _ => false) b2j (a.length + 1)
    0 a.length 0 b.length
  if a.length + b.length = 0 then 1
  else mkRat (2 * (total : Int)) (a.length + b.length)

/-- Proof scaffolding for the self-comparison `SequenceMatcher(None, s, s)`
over the full window: `chainR s i j` is the value `newj2len[j]` ends up
with at iteration `i` of the `find_longest_match` main loop (the length of
the diagonal-free chain of visible matches ending at `(i, j)`). -/
def chainR (s : List Char) : Nat → Nat → Nat
  | 0, j => if j ∈ b2jFun true s (s.getD 0 ' ') then 1 else 0
  | i + 1, j =>
      if j ∈ b2jFun true s (s.getD (i + 1) ' ') then
        (if j = 0 then 0 else chainR s i (j - 1)) + 1
      else 0

/-! ### src/dedup_articles.py -/

/-- Python `\s` whitespace, restricted to the ASCII whitespace characters
(space, tab, newline, carriage return, vertical tab, form feed); the repo
only feeds it news headlines. -/
def isPySpace (c : Char) : Bool :=
  c = ' ' ∨ c = '\t' ∨ c = '\n' ∨ c = '\x0d' ∨ c = '\x0b' ∨ c = '\x0c'

/-- Position of the first ']' in the list, provided no '\n' occurs before
it: the shortest completion of the non-greedy `\[.*?\]` (where `.` does
not match a newline). -/
def closeBracketIdx : List Char → Option Nat
  | [] => none
  | c :: rest =>
      if c = ']' then some 0
      else if c = '\n' then none
      else (closeBracketIdx rest).map (· + 1)

/-- Embeds `re.sub(r'\[.*?\]\s*', '', title)`: scan left to right; at each '[',
if the pattern matches (a ']' later with no intervening newline), drop
through the ']' and the following whitespace run and continue after the
match, otherwise keep the character and move on.  Fuel-driven structural
recursion: every step consumes at least one character, so fuel equal to
the length of the list (as supplied by `stripSourceTags`) is exact. -/
def stripSourceTagsF : Nat → List Char → List Char
  | 0, l => l
  | _ + 1, [] => []
  | fuel + 1, c :: rest =>
      if c = '[' then
        match closeBracketIdx rest with
        | some idx => stripSourceTagsF fuel ((rest.drop (idx + 1)).dropWhile isPySpace)
        | none => c :: stripSourceTagsF fuel rest
      else c :: stripSourceTagsF fuel rest

/-- The full tag-removal pass of `normalize_title`. -/
def stripSourceTags (l : List Char) : List Char :=
  stripSourceTagsF l.length l

/-- Embeds `str.lower()`, modelled per character with Lean's ASCII `Char.toLower`
(the repo's titles are ASCII news headlines). -/
def pyLower (l : List Char) : List Char := l.map Char.toLower

/-- Embeds `str.strip()`: remove leading and trailing whitespace. -/
def pyStrip (l : List Char) : List Char :=
  ((l.dropWhile isPySpace).reverse.dropWhile isPySpace).reverse

/-- Embeds `normalize_title`: remove source tags like `[Source Name]`, lowercase,
strip. -/
def normalize_title (title : String) : List Char :=
  pyStrip (pyLower (stripSourceTags title.data))

/-- Embeds `title_similarity`: similarity ratio between two titles (0.0 to 1.0),
computed by `SequenceMatcher(None, norm1, norm2).ratio()`. -/
def title_similarity (title1 title2 : String) : ℚ :=
  ratioQ (normalize_title title1) (normalize_title title2)

/-- A candidate article handed to `deduplicate_articles`
(`article.get('url', '')` / `article.get('title', '')`). -/
structure Article where
  url : String
  title : String
deriving DecidableEq, Repr

/-- One record loaded by `load_recent_citations`: a previously covered
article with the date and segment of the episode that covered it. -/
structure Citation where
  url : String
  title : String
  episode_date : String
  segment : String
deriving DecidableEq, Repr

/-- One entry of the `evolving_stories` output list. -/
structure EvolvingStory where
  article : Article
  original_date : String
  original_title : String
  similarity : ℚ
deriving DecidableEq, Repr

/-- The `covered_urls` set (membership is all the code uses). -/
def covered_urls (recent : List Citation) : List String :=
  recent.map (·.url)

/-- The inner `for past_article in recent_citations` loop: return the
evolving-story entry for the first record with
`similarity >= similarity_threshold and article_url != past_article['url']`,
if any (the Python loop appends and breaks). -/
def scanEvolving (a : Article) (thr : ℚ) : List Citation → Option EvolvingStory
  | [] => none
  | p :: ps =>
      let s := title_similarity a.title p.title
      if thr ≤ s ∧ a.url ≠ p.url then
        some ⟨a, p.episode_date, p.title, s⟩
      else scanEvolving a thr ps

/-- The main candidate loop of `deduplicate_articles`, building
`(filtered_articles, evolving_stories)` in input order. -/
def dedupLoop (recent : List Citation) (thr : ℚ) :
    List Article → List Article × List EvolvingStory
  | [] => ([], [])
  | a :: rest =>
      let r := dedupLoop recent thr rest
      if a.url ∈ covered_urls recent then r
      else
        match scanEvolving a thr recent with
        | some e => (a :: r.1, e :: r.2)
        | none => (a :: r.1, r.2)

/-- Embeds `deduplicate_articles(new_articles, similarity_threshold=0.70)`, with
the history (the result of `load_recent_citations(days=7)`) passed
explicitly.  When the history is empty the function returns early with
`(new_articles, [])`. -/
def deduplicate_articles (new_articles : List Article) (recent : List Citation)
    (thr : ℚ := mkRat 7 10) : List Article × List EvolvingStory :=
  if recent = [] then (new_articles, [])
  else dedupLoop recent thr new_articles

/-! ### src/psa_selector.py

Dates are modelled as proleptic-Gregorian ordinals computed from
year/month/day (`Date.toordinal` semantics: 0001-01-01 has ordinal 1);
date comparison and subtraction in the source go through these ordinals.
The JSON config files and the persisted rotation-state file are modelled
as explicit parameters; `save_rotation_state` is modelled by returning the
state that would be written. -/

/-- Python `datetime.date` leap-year rule. -/
def isLeapYear (y : Nat) : Bool :=
  y % 4 = 0 ∧ (y % 100 ≠ 0 ∨ y % 400 = 0)

/-- Days in month `m` of year `y` (months 1-12). -/
def daysInMonth (y m : Nat) : Nat :=
  if m = 2 then (if isLeapYear y then 29 else 28)
  else if m = 4 ∨ m = 6 ∨ m = 9 ∨ m = 11 then 30
  else 31

/-- Days in the months strictly before month `m` of year `y`. -/
def daysBeforeMonth (y m : Nat) : Nat :=
  (((List.range m).filter (fun i => 1 ≤ i)).map (daysInMonth y)).sum

/-- Embeds `datetime.date(y, m, d).toordinal()`. -/
def dateOrdinal (y m d : Nat) : Nat :=
  365 * (y - 1) + ((y - 1) / 4 - (y - 1) / 100 + (y - 1) / 400)
    + daysBeforeMonth y m + d

/-- The validity check `datetime.date(y, m, d)` performs (raising
`ValueError` on failure); the year bounds 1..9999 are irrelevant here
because only month/day come from config strings. -/
def isValidMonthDay (y m d : Nat) : Bool :=
  1 ≤ m ∧ m ≤ 12 ∧ 1 ≤ d ∧ d ≤ daysInMonth y m

/-- A `datetime.date` value. -/
structure PyDate where
  year : Nat
  month : Nat
  day : Nat
deriving DecidableEq, Repr

/-- Ordinal of a `PyDate`. -/
def PyDate.ord (t : PyDate) : Int :=
  dateOrdinal t.year t.month t.day

/-- Embeds `date.weekday()`: Monday is 0.  0001-01-01 (ordinal 1) was a Monday. -/
def PyDate.weekday (t : PyDate) : Nat :=
  (dateOrdinal t.year t.month t.day + 6) % 7

/-- Embeds `int(s)` for the digit-only strings that appear in the MM-DD config
fields (Python's `int` also accepts signs/whitespace/underscores, which
never occur here); `none` models `ValueError`. -/
def pyIntOfDigits (l : List Char) : Option Nat :=
  if l ≠ [] ∧ l.all Char.isDigit then
    some (l.foldl (fun acc c => 10 * acc + (c.toNat - 48)) 0)
  else none

/-- Embeds `date(year, int(mmdd[:2]), int(mmdd[3:]))` inside the `try` block of
`find_active_events`: `none` models the caught `ValueError` (from either
`int` or the `date` constructor). -/
def parseEventDate (year : Nat) (mmdd : String) : Option Nat :=
  match pyIntOfDigits (mmdd.data.take 2), pyIntOfDigits (mmdd.data.drop 3) with
  | some m, some d =>
      if isValidMonthDay year m d then some (dateOrdinal year m d) else none
  | _, _ => none

/-- A PSA organization record (`psa_organizations.json`). -/
structure Org where
  name : String
  short_name : String
  description : String
  website : Option String
  weekdays : List Nat
  tags : List String
deriving DecidableEq, Repr

/-- A PSA event record (`psa_events.json`).  `organization_id = none`
models both an absent key and JSON `null`; `all_orgs = false` models an
absent or falsy `all_orgs` key. -/
structure PEvent where
  name : String
  start_date : String
  end_date : String
  organization_id : Option String
  organization_ids : List String
  all_orgs : Bool
  psa_angle : String
deriving DecidableEq, Repr

/-- Embeds `get_orgs_for_weekday`: the `(org_id, org_data)` pairs whose weekday
list contains `weekday`, in configuration (insertion) order. -/
def get_orgs_for_weekday (weekday : Nat) (organizations : List (String × Org)) :
    List (String × Org) :=
  organizations.filter (fun p => weekday ∈ p.2.weekdays)

/-- Duration key `(end - start).days` used by the `find_active_events`
sort, for an event whose dates parse in `year` (0 otherwise; unreachable
for events that survived the parse filter). -/
def eventDuration (year : Nat) (ev : PEvent) : Int :=
  match parseEventDate year ev.start_date, parseEventDate year ev.end_date with
  | some s, some e => (e : Int) - (s : Int)
  | _, _ => 0

/-- One step of the filtering pass of `find_active_events`: materialize
`start`/`end` in today's year (skipping on `ValueError`), keep the event
with its duration key if it is active (`start <= today <= end`) or
upcoming (`0 < (start - today).days <= lookahead_days`). -/
def eventKeyOf (today : PyDate) (lookahead : Int) (ev : PEvent) :
    Option (Int × PEvent) :=
  match parseEventDate today.year ev.start_date,
      parseEventDate today.year ev.end_date with
  | some s, some e =>
      if (s : Int) ≤ today.ord ∧ today.ord ≤ (e : Int) then
        some ((e : Int) - (s : Int), ev)
      else if 0 < (s : Int) - today.ord ∧ (s : Int) - today.ord ≤ lookahead then
        some ((e : Int) - (s : Int), ev)
      else none
  | _, _ => none

/-- The filtering pass of `find_active_events`. -/
def activeWithKeys (today : PyDate) (events : List PEvent) (lookahead : Int) :
    List (Int × PEvent) :=
  events.filterMap (eventKeyOf today lookahead)

/-- Stable insertion used to model Python's stable `list.sort(key=...)`:
`x` goes after every element whose key is `≤` its own. -/
def insertByKey (x : Int × PEvent) : List (Int × PEvent) → List (Int × PEvent)
  | [] => [x]
  | y :: ys => if y.1 ≤ x.1 then y :: insertByKey x ys else x :: y :: ys

/-- Stable sort by the duration key (`active.sort(key=lambda x: x[0])`). -/
def sortByKey (l : List (Int × PEvent)) : List (Int × PEvent) :=
  l.foldl (fun acc x => insertByKey x acc) []

/-- Embeds `find_active_events(today, events, lookahead_days=7)`. -/
def find_active_events (today : PyDate) (events : List PEvent)
    (lookahead : Int := 7) : List PEvent :=
  (sortByKey (activeWithKeys today events lookahead)).map (·.2)

/-- Dict lookup `organizations[org_id]` (a `KeyError` cannot occur on the
paths exercised here; a default organization stands in for it). -/
def lookupOrg (orgs : List (String × Org)) (oid : String) : Org :=
  (((orgs.find? (fun p => p.1 = oid)).map (·.2)).getD
    ⟨"", "", "", none, [], []⟩)

/-- Does the second list start with the first? -/
def startsWithL : List Char → List Char → Bool
  | [], _ => true
  | _ :: _, [] => false
  | p :: ps, c :: cs => if p = c then startsWithL ps cs else false

/-- Left-to-right non-overlapping replacement of a non-empty pattern,
fuel-driven (fuel = subject length always suffices: each step consumes at
least one subject character). -/
def replaceAllL : Nat → List Char → List Char → List Char → List Char
  | 0, _, _, l => l
  | _ + 1, _, _, [] => []
  | fuel + 1, pat, repl, c :: rest =>
      if startsWithL pat (c :: rest) then
        repl ++ replaceAllL fuel pat repl (List.drop (pat.length - 1) rest)
      else c :: replaceAllL fuel pat repl rest

/-- String-level replacement wrapper. -/
def pyReplace (s pat repl : String) : String :=
  ⟨replaceAllL s.data.length pat.data repl.data s.data⟩

/-- Embeds `_format_psa_angle`: fill `org_name` / `org_website` placeholders
(`str.format` restricted to the two placeholders that occur in the
configs). -/
def format_psa_angle (angle_template : String) (org : Org) : String :=
  pyReplace (pyReplace angle_template "\x7borg_name\x7d" org.name)
    "\x7borg_website\x7d" (org.website.getD "their website")

/-- Truthiness-plus-membership test
`if target_id and target_id in roster_org_ids` (Python's `None` and the
empty string are falsy). -/
def targetMatches (target : Option String) (ids : List String) : Bool :=
  match target with
  | some t => t ≠ "" ∧ t ∈ ids
  | none => false

/-- Embeds `match_event_to_roster(active_events, roster_org_ids, organizations)`:
walk the active events in order; match a specific target id, else the
first listed target id on the roster, else an `all_orgs` event against the
first roster id. -/
def match_event_to_roster (active : List PEvent) (roster_org_ids : List String)
    (organizations : List (String × Org)) : Option (String × Org × String) :=
  match active with
  | [] => none
  | ev :: rest =>
      if targetMatches ev.organization_id roster_org_ids then
        let tid := ev.organization_id.getD ""
        let org := lookupOrg organizations tid
        some (tid, org, format_psa_angle ev.psa_angle org)
      else
        match ev.organization_ids.find? (fun tid => tid ∈ roster_org_ids) with
        | some tid =>
            let org := lookupOrg organizations tid
            some (tid, org, format_psa_angle ev.psa_angle org)
        | none =>
            if ev.all_orgs ∧ roster_org_ids ≠ [] then
              let fid := roster_org_ids.headD ""
              let org := lookupOrg organizations fid
              some (fid, org, format_psa_angle ev.psa_angle org)
            else match_event_to_roster rest roster_org_ids organizations

/-- The persisted rotation state `psa_rotation_state.json`: a JSON object
mapping weekday strings to the last-used roster index, modelled as an
insertion-ordered association list like a Python dict. -/
def RotState := List (String × Int)
deriving DecidableEq, Repr

/-- Embeds `state.get(key, default)`. -/
def stateGet (key : String) (dflt : Int) (state : RotState) : Int :=
  (((state.find? (fun p => p.1 = key)).map (·.2)).getD dflt)

/-- Embeds `state[key] = value`: overwrite in place if present (dicts keep the
original insertion position), else append. -/
def stateSet (key : String) (v : Int) : RotState → RotState
  | [] => [(key, v)]
  | (k, w) :: rest =>
      if k = key then (key, v) :: rest else (k, w) :: stateSet key v rest

/-- Embeds `round_robin_select(weekday, roster, state)`: advance this weekday's
index by one modulo the roster length, record it, and return that roster
entry (Python's `%` on a positive modulus, i.e. Euclidean `%`). -/
def round_robin_select (weekday : Nat) (roster : List (String × Org))
    (state : RotState) : String × Org × RotState :=
  let key := toString weekday
  let last_index := stateGet key (-1) state
  let next_index := (last_index + 1) % (roster.length : Int)
  let state' := stateSet key next_index state
  let entry := roster.getD next_index.toNat ("", ⟨"", "", "", none, [], []⟩)
  (entry.1, entry.2, state')

/-- Concrete fixture: a broad seasonal event (Jun 1 to Aug 29, an 89-day
range) used to exercise the specificity sort. -/
def exampleSeasonEvent : PEvent :=
  ⟨"Summer trails", "06-01", "08-29", some "first-journey-trails", [], false,
    "Trail season is here."⟩

/-- Concrete fixture: a single-day event active on the same date as
`exampleSeasonEvent`. -/
def exampleDayEvent : PEvent :=
  ⟨"Trail Day", "06-15", "06-15", some "first-journey-trails", [], false,
    "Celebrate Trail Day."⟩

/-- The result dict of `select_psa`. -/
structure Selection where
  org_id : String
  org_name : String
  org_short_name : String
  org_description : String
  org_website : Option String
  psa_angle : Option String
  event_name : Option String
  source : String
deriving DecidableEq, Repr

/-- Builds the result dict shared by both paths of `select_psa`. -/
def mkSelection (org_id : String) (org : Org) (psa_angle event_name : Option String)
    (source : String) : Selection :=
  ⟨org_id, org.name, org.short_name, org.description, org.website,
    psa_angle, event_name, source⟩

/-- The `for event in active_events` loop of `select_psa` that recovers
the name of the matched event for the metadata (`target == org_id` is
false when the key is absent/None). -/
def findEventName (active : List PEvent) (org_id : String) : Option String :=
  ((active.find? (fun ev =>
    ev.organization_id = some org_id ∨ org_id ∈ ev.organization_ids ∨
      ev.all_orgs)).map (·.name))

/-- Embeds `select_psa(today)`, with the two config files and the persisted
rotation state passed explicitly; the second component of the result is
the rotation state on disk after the call (`save_rotation_state` is only
reached on the round-robin path). -/
def select_psa (today : PyDate) (organizations : List (String × Org))
    (events : List PEvent) (state : RotState) : Option Selection × RotState :=
  let weekday := today.weekday
  let roster := get_orgs_for_weekday weekday organizations
  if roster = [] then (none, state)
  else
    let roster_org_ids := roster.map (·.1)
    let active_events := find_active_events today events
    match match_event_to_roster active_events roster_org_ids organizations with
    | some m =>
        let event_name := findEventName active_events m.1
        (some (mkSelection m.1 m.2.1 (some m.2.2) event_name "event"), state)
    | none =>
        let r := round_robin_select weekday roster state
        (some (mkSelection r.1 r.2.1 none none "rotation"), r.2.2)

/-! ### Characterization lemmas for the deduplicator -/

/-- The inner history scan is exactly a first-match search (`List.find?`)
for the first record clearing the threshold with a different URL. -/
theorem scanEvolving_eq (a : Article) (thr : ℚ) (l : List Citation) :
    scanEvolving a thr l =
      (l.find? (fun p =>
        decide (thr ≤ title_similarity a.title p.title ∧ a.url ≠ p.url))).map
        (fun p => ⟨a, p.episode_date, p.title, title_similarity a.title p.title⟩) := by
  induction l with
  | nil => rfl
  | cons p ps ih =>
      by_cases h : thr ≤ title_similarity a.title p.title ∧ a.url ≠ p.url
      · simp [scanEvolving, List.find?_cons, h]
      · simp [scanEvolving, List.find?_cons, h, ih]

/-- Closed form of the candidate loop: kept is an order-preserving filter
on the exact-URL test, evolving is a filterMap of the first-match scan. -/
theorem dedupLoop_eq (recent : List Citation) (thr : ℚ) (l : List Article) :
    dedupLoop recent thr l =
      (l.filter (fun a => decide (a.url ∉ covered_urls recent)),
       l.filterMap (fun a => if a.url ∈ covered_urls recent then none
         else scanEvolving a thr recent)) := by
  induction l with
  | nil => rfl
  | cons a rest ih =>
      by_cases h : a.url ∈ covered_urls recent
      · simp [dedupLoop, ih, h]
      · cases hscan : scanEvolving a thr recent <;>
          simp [dedupLoop, ih, h, hscan]

/-- Closed form of `deduplicate_articles` (the empty-history early return
agrees with the general closed form). -/
theorem deduplicate_articles_eq (cands : List Article) (recent : List Citation)
    (thr : ℚ) :
    deduplicate_articles cands recent thr =
      (cands.filter (fun a => decide (a.url ∉ covered_urls recent)),
       cands.filterMap (fun a => if a.url ∈ covered_urls recent then none
         else scanEvolving a thr recent)) := by
  by_cases h : recent = []
  · subst h
    simp [deduplicate_articles, covered_urls, scanEvolving,
      List.filterMap_eq_nil_iff, List.filter_eq_self]
  · rw [deduplicate_articles, if_neg h]
    exact dedupLoop_eq recent thr cands

/-- Shared helper: a kept candidate with some history record clearing the
threshold under a different URL gets an evolving entry. -/
theorem evolving_entry_exists (cands : List Article) (recent : List Citation)
    (thr : ℚ) (c : Article) (hmem : c ∈ cands)
    (hurl : c.url ∉ covered_urls recent)
    (h : ∃ r ∈ recent, thr ≤ title_similarity c.title r.title ∧ c.url ≠ r.url) :
    ∃ e ∈ (deduplicate_articles cands recent thr).2, e.article = c := by
  rw [deduplicate_articles_eq]
  obtain ⟨r, hr, hpred⟩ := h
  have hsome : (recent.find? (fun p =>
      decide (thr ≤ title_similarity c.title p.title ∧ c.url ≠ p.url))).isSome := by
    rw [List.find?_isSome]
    exact ⟨r, hr, by simpa using hpred⟩
  obtain ⟨p, hp⟩ := Option.isSome_iff_exists.mp hsome
  refine ⟨⟨c, p.episode_date, p.title, title_similarity c.title p.title⟩, ?_, rfl⟩
  rw [List.mem_filterMap]
  exact ⟨c, hmem, by rw [if_neg hurl, scanEvolving_eq, hp]; rfl⟩

/-- Claim C3: a candidate whose URL appears in the URL set built from the
loaded history is dropped by the deduplicator: it is in neither the kept
list nor the evolving list, regardless of title similarity. -/
theorem exact_url_duplicate_always_dropped
    (cands : List Article) (recent : List Citation) (thr : ℚ) (c : Article)
    (_hmem : c ∈ cands) (hurl : c.url ∈ covered_urls recent) :
    c ∉ (deduplicate_articles cands recent thr).1 ∧
      ∀ e ∈ (deduplicate_articles cands recent thr).2, e.article ≠ c := by
  rw [deduplicate_articles_eq]
  constructor
  · intro hc
    rw [List.mem_filter] at hc
    have h2 := hc.2
    simp only [decide_eq_true_eq] at h2
    exact h2 hurl
  · intro e he
    rw [List.mem_filterMap] at he
    obtain ⟨a, _, hfa⟩ := he
    by_cases h : a.url ∈ covered_urls recent
    · rw [if_pos h] at hfa
      exact absurd hfa (by simp)
    · rw [if_neg h] at hfa
      rw [scanEvolving_eq] at hfa
      obtain ⟨p, _, hpe⟩ := Option.map_eq_some'.mp hfa
      intro hec
      apply h
      have : e.article = a := by rw [← hpe]
      rw [this] at hec
      rw [hec]
      exact hurl

/-- Witness for C3 at a concrete input: an exact URL duplicate with a
completely dissimilar title is dropped from both outputs. -/
theorem exact_url_duplicate_always_dropped_witness :
    (⟨"https://a.com/1", "Totally unrelated wildfire update"⟩ : Article) ∉
      (deduplicate_articles [⟨"https://a.com/1", "Totally unrelated wildfire update"⟩]
        [⟨"https://a.com/1", "City approves broadband grant", "2026-01-20", "news"⟩]
        (mkRat 7 10)).1 ∧
    ∀ e ∈ (deduplicate_articles [⟨"https://a.com/1", "Totally unrelated wildfire update"⟩]
        [⟨"https://a.com/1", "City approves broadband grant", "2026-01-20", "news"⟩]
        (mkRat 7 10)).2,
      e.article ≠ ⟨"https://a.com/1", "Totally unrelated wildfire update"⟩ :=
  exact_url_duplicate_always_dropped _ _ _ _ (by decide) (by decide)

/-- Claim C4: a candidate whose URL is not in the history URL set and whose
title similarity to some history record with a different URL is exactly the
threshold 0.70 is classified evolving and still appears in the kept list;
the kept list removes exactly the URL duplicates. -/
theorem threshold_similarity_marks_evolving_and_keeps
    (cands : List Article) (recent : List Citation) (c : Article)
    (hmem : c ∈ cands) (hurl : c.url ∉ covered_urls recent)
    (hsim : ∃ r ∈ recent,
      title_similarity c.title r.title = mkRat 7 10 ∧ r.url ≠ c.url) :
    c ∈ (deduplicate_articles cands recent).1 ∧
      (∃ e ∈ (deduplicate_articles cands recent).2, e.article = c) ∧
      (deduplicate_articles cands recent).1 =
        cands.filter (fun a => decide (a.url ∉ covered_urls recent)) := by
  refine ⟨?_, ?_, ((deduplicate_articles_eq cands recent (mkRat 7 10)).symm ▸ rfl)⟩
  · rw [deduplicate_articles_eq]
    rw [List.mem_filter]
    exact ⟨hmem, by simpa using hurl⟩
  · apply evolving_entry_exists cands recent (mkRat 7 10) c hmem hurl
    obtain ⟨r, hr, heq, hne⟩ := hsim
    exact ⟨r, hr, le_of_eq heq.symm, fun h => hne h.symm⟩

/-- Witness for C4 at a concrete input with similarity exactly 7/10
(2·7 matched characters over 20). -/
theorem threshold_similarity_marks_evolving_and_keeps_witness :
    (⟨"https://b.com/2", "abcdefgxyz"⟩ : Article) ∈
      (deduplicate_articles [⟨"https://b.com/2", "abcdefgxyz"⟩]
        [⟨"https://a.com/1", "abcdefguvw", "2026-01-05", "news"⟩]).1 ∧
    (∃ e ∈ (deduplicate_articles [⟨"https://b.com/2", "abcdefgxyz"⟩]
        [⟨"https://a.com/1", "abcdefguvw", "2026-01-05", "news"⟩]).2,
      e.article = ⟨"https://b.com/2", "abcdefgxyz"⟩) ∧
    (deduplicate_articles [⟨"https://b.com/2", "abcdefgxyz"⟩]
        [⟨"https://a.com/1", "abcdefguvw", "2026-01-05", "news"⟩]).1 =
      List.filter (fun a => decide (a.url ∉
        covered_urls [⟨"https://a.com/1", "abcdefguvw", "2026-01-05", "news"⟩]))
        [⟨"https://b.com/2", "abcdefgxyz"⟩] :=
  threshold_similarity_marks_evolving_and_keeps _ _ _ (by decide) (by decide)
    (by decide)

/-- Claim C7: the evolving scan is first-match in history load order: the
evolving list attaches, to each kept candidate, the date and title of the
first (`List.find?`) history record with similarity at or above the
threshold and a different URL, never continuing to a more similar later
record. -/
theorem evolving_scan_first_match (cands : List Article) (recent : List Citation)
    (thr : ℚ) :
    (deduplicate_articles cands recent thr).2 =
      cands.filterMap (fun c =>
        if c.url ∈ covered_urls recent then none
        else (recent.find? (fun r =>
            decide (thr ≤ title_similarity c.title r.title ∧ c.url ≠ r.url))).map
          (fun r => ⟨c, r.episode_date, r.title,
            title_similarity c.title r.title⟩)) := by
  rw [deduplicate_articles_eq]
  refine List.filterMap_congr (fun c _ => ?_)
  by_cases h : c.url ∈ covered_urls recent
  · simp [h]
  · simp [h, scanEvolving_eq]

/-- Witness for C7: with a first record at similarity 7/10 and a later
record at similarity 1, the evolving entry attaches the first record. -/
theorem evolving_scan_first_match_witness :
    (deduplicate_articles [⟨"https://c.com/3", "abcdefghij"⟩]
      [⟨"https://a.com/1", "abcdefgzzz", "2026-01-04", "news"⟩,
       ⟨"https://b.com/2", "abcdefghij", "2026-01-05", "news"⟩]
      (mkRat 7 10)).2 =
    [⟨⟨"https://c.com/3", "abcdefghij"⟩, "2026-01-04", "abcdefgzzz",
      mkRat 7 10⟩] := by
  rw [evolving_scan_first_match]
  decide

/-- Claim C9: duplicates are only ever detected against history records:
the kept list is exactly the input-order filter of the batch on the history
URL set (hence two batch items sharing a URL absent from history are both
kept, in input order), and every evolving annotation points at a history
record. -/
theorem dedup_compares_only_against_history (cands : List Article)
    (recent : List Citation) (thr : ℚ) :
    (deduplicate_articles cands recent thr).1 =
      cands.filter (fun a => decide (a.url ∉ covered_urls recent)) ∧
      ∀ e ∈ (deduplicate_articles cands recent thr).2,
        e.article ∈ cands ∧ ∃ r ∈ recent,
          e.original_date = r.episode_date ∧ e.original_title = r.title ∧
          thr ≤ title_similarity e.article.title r.title ∧
          e.article.url ≠ r.url := by
  constructor
  · rw [deduplicate_articles_eq]
  · intro e he
    rw [deduplicate_articles_eq, List.mem_filterMap] at he
    obtain ⟨a, ha, hfa⟩ := he
    by_cases h : a.url ∈ covered_urls recent
    · rw [if_pos h] at hfa
      exact absurd hfa (by simp)
    · rw [if_neg h, scanEvolving_eq] at hfa
      obtain ⟨p, hp, hpe⟩ := Option.map_eq_some'.mp hfa
      have hmem := List.mem_of_find?_eq_some hp
      have hpred := List.find?_some hp
      simp only [decide_eq_true_eq] at hpred
      subst hpe
      exact ⟨ha, p, hmem, rfl, rfl, hpred.1, hpred.2⟩

/-- Witness for C9: two batch candidates sharing a URL not in history are
both kept, in input order. -/
theorem dedup_compares_only_against_history_witness :
    (deduplicate_articles
      [⟨"https://d.com/7", "First take on the story"⟩,
       ⟨"https://d.com/7", "Second take on the story"⟩]
      [⟨"https://a.com/1", "Old coverage", "2026-01-01", "news"⟩]
      (mkRat 7 10)).1 =
    [⟨"https://d.com/7", "First take on the story"⟩,
     ⟨"https://d.com/7", "Second take on the story"⟩] := by
  rw [(dedup_compares_only_against_history
    [⟨"https://d.com/7", "First take on the story"⟩,
     ⟨"https://d.com/7", "Second take on the story"⟩]
    [⟨"https://a.com/1", "Old coverage", "2026-01-01", "news"⟩]
    (mkRat 7 10)).1]
  decide

/-- Claim C6 counterexample: two titles that normalize to the empty string
compare at the defined ratio 1.0, and the deduplicator treats that as a
match, classifying the candidate as evolving (the claim says it must be
treated as a non-match). -/
theorem empty_titles_classified_evolving :
    (deduplicate_articles [⟨"https://u1.com", "[X]"⟩]
      [⟨"https://u2.com", "[Y] ", "2026-01-05", "news"⟩]).2 =
    [⟨⟨"https://u1.com", "[X]"⟩, "2026-01-05", "[Y] ", 1⟩] := by decide

/-- Claim C6 amended: the ratio on two empty normalized titles is the
defined value 1.0 — no crash — and the deduplicator treats that value as a
match, not a non-match: a kept candidate whose title normalizes to the
empty string is classified evolving whenever some history record also
normalizes to empty and carries a different URL. -/
theorem empty_normalized_titles_match
    (t1 t2 : String) (h1 : normalize_title t1 = []) (h2 : normalize_title t2 = [])
    (cands : List Article) (recent : List Citation) (c : Article) (r : Citation)
    (hc : c ∈ cands) (hr : r ∈ recent) (hct : c.title = t1) (hrt : r.title = t2)
    (hurl : c.url ∉ covered_urls recent) (hne : c.url ≠ r.url) :
    title_similarity t1 t2 = 1 ∧
      ∃ e ∈ (deduplicate_articles cands recent).2, e.article = c := by
  have hsim : title_similarity t1 t2 = 1 := by
    unfold title_similarity
    rw [h1, h2]
    decide
  refine ⟨hsim, ?_⟩
  apply evolving_entry_exists cands recent (mkRat 7 10) c hc hurl
  refine ⟨r, hr, ?_, hne⟩
  rw [hct, hrt, hsim]
  decide

/-! ### Reflexivity of the similarity ratio

For the self-comparison `SequenceMatcher(None, s, s)` the main loop's best
block always lies on the diagonal (an off-diagonal chain is never longer
than the diagonal chain through the earlier of its two endpoints, which
the scan reaches first), and the extension loops then grow a diagonal
block to the whole window, so `ratio` is exactly 1. -/

theorem mem_b2jFun {s : List Char} {c : Char} {j : Nat}
    (h : j ∈ b2jFun true s c) : j < s.length ∧ s.getD j ' ' = c := by
  unfold b2jFun at h
  split at h
  · exact absurd h (List.not_mem_nil j)
  · unfold occurrences at h
    rw [List.mem_filter, List.mem_range] at h
    exact ⟨h.1, by simpa using h.2⟩

theorem mem_b2jFun_self {s : List Char} {c : Char} {j i : Nat}
    (hj : j ∈ b2jFun true s c) (hi : i < s.length) (hc : s.getD i ' ' = c) :
    i ∈ b2jFun true s c := by
  unfold b2jFun at hj ⊢
  split at hj
  · exact absurd hj (List.not_mem_nil j)
  · next hcond =>
      rw [if_neg hcond]
      unfold occurrences
      rw [List.mem_filter, List.mem_range]
      exact ⟨hi, by simpa using hc⟩

theorem b2jFun_sorted (s : List Char) (c : Char) :
    (b2jFun true s c).Pairwise (· < ·) := by
  unfold b2jFun
  split
  · exact List.Pairwise.nil
  · exact (List.pairwise_lt_range _).filter _

theorem chainR_zero (s : List Char) (j : Nat) :
    chainR s 0 j = if j ∈ b2jFun true s (s.getD 0 ' ') then 1 else 0 := rfl

theorem chainR_succ (s : List Char) (i j : Nat) :
    chainR s (i + 1) j =
      if j ∈ b2jFun true s (s.getD (i + 1) ' ') then
        (if j = 0 then 0 else chainR s i (j - 1)) + 1
      else 0 := rfl

theorem chainR_of_not_mem {s : List Char} {i j : Nat}
    (h : j ∉ b2jFun true s (s.getD i ' ')) : chainR s i j = 0 := by
  cases i with
  | zero => rw [chainR_zero, if_neg h]
  | succ m => rw [chainR_succ, if_neg h]

theorem chainR_le_succ (s : List Char) : ∀ i j, chainR s i j ≤ i + 1 := by
  intro i
  induction i with
  | zero =>
      intro j
      rw [chainR_zero]
      split <;> omega
  | succ i ih =>
      intro j
      rw [chainR_succ]
      split
      · have := ih (j - 1)
        split <;> omega
      · omega

theorem chainR_le_diag (s : List Char) :
    ∀ i j, chainR s i j ≤ chainR s (min i j) (min i j) := by
  intro i
  induction i with
  | zero =>
      intro j
      by_cases hm : j ∈ b2jFun true s (s.getD 0 ' ')
      · obtain ⟨hjlt, hjc⟩ := mem_b2jFun hm
        have h0lt : (0 : Nat) < s.length := Nat.lt_of_le_of_lt (Nat.zero_le j) hjlt
        have h0 : 0 ∈ b2jFun true s (s.getD 0 ' ') :=
          mem_b2jFun_self hm h0lt rfl
        rw [Nat.zero_min, chainR_zero, chainR_zero, if_pos hm, if_pos h0]
      · rw [chainR_zero, if_neg hm]
        omega
  | succ i ih =>
      intro j
      by_cases hm : j ∈ b2jFun true s (s.getD (i + 1) ' ')
      · obtain ⟨hjlt, hjc⟩ := mem_b2jFun hm
        cases j with
        | zero =>
            have h0 : 0 ∈ b2jFun true s (s.getD 0 ' ') := by
              rw [hjc]; exact hm
            rw [Nat.min_zero, chainR_succ, if_pos hm, chainR_zero, if_pos h0]
            simp
        | succ j' =>
            have hmin : min (i + 1) (j' + 1) = min i j' + 1 :=
              Nat.succ_min_succ i j'
            have hmlt : min i j' + 1 < s.length :=
              Nat.lt_of_le_of_lt (Nat.succ_le_succ (Nat.min_le_right i j')) hjlt
            have hceq : s.getD (min i j' + 1) ' ' = s.getD (i + 1) ' ' := by
              rcases Nat.le_total i j' with hij | hij
              · rw [Nat.min_eq_left hij]
              · rw [Nat.min_eq_right hij]; exact hjc
            have hmm : (min i j' + 1) ∈ b2jFun true s (s.getD (min i j' + 1) ' ') := by
              rw [hceq]
              exact mem_b2jFun_self hm hmlt hceq
            rw [hmin]
            have e1 : chainR s (i + 1) (j' + 1) = chainR s i j' + 1 := by
              rw [chainR_succ, if_pos hm]
              simp
            have e2 : chainR s (min i j' + 1) (min i j' + 1) =
                chainR s (min i j') (min i j') + 1 := by
              rw [chainR_succ, if_pos hmm]
              simp
            rw [e1, e2]
            exact Nat.succ_le_succ (ih j')
      · rw [chainR_succ, if_neg hm]
        omega

theorem takeWhile_of_all {α : Type} (p : α → Bool) :
    ∀ l : List α, (∀ a ∈ l, p a = true) → l.takeWhile p = l
  | [], _ => rfl
  | a :: l, h => by
      rw [List.takeWhile_cons, if_pos (h a (List.mem_cons_self a l))]
      rw [takeWhile_of_all p l (fun x hx => h x (List.mem_cons_of_mem a hx))]

/-- At the full window the range restrictions on the candidate `j` list
are vacuous: the processed list is exactly the `b2j` row. -/
theorem jsRow_eq (s : List Char) (i : Nat) :
    ((b2jFun true s (s.getD i ' ')).takeWhile (fun j => j < s.length)).filter
      (fun j => 0 ≤ j) = b2jFun true s (s.getD i ' ') := by
  rw [takeWhile_of_all _ _ (fun j hj => by simp [(mem_b2jFun hj).1])]
  exact List.filter_eq_self.mpr (fun j _ => by simp)

/-- Invariant of the inner `j` loop in the self-comparison: starting from
a diagonal best block, the best stays diagonal, its size dominates every
chain processed so far, and `newj2len` records exactly the row-`i` chains. -/
theorem innerLoop_self_spec (s : List Char) (i : Nat) (j2lenOld : Nat → Nat) :
    ∀ (rest : List Nat) (newj2len : Nat → Nat) (bi bs : Nat),
      (∀ j ∈ rest, j ∈ b2jFun true s (s.getD i ' ')) →
      rest.Pairwise (· < ·) →
      (∀ j ∈ rest, (if j = 0 then 0 else j2lenOld (j - 1)) + 1 = chainR s i j) →
      bi + bs ≤ s.length →
      (∀ m, m < i → ∀ x, chainR s m x ≤ bs) →
      (i ∈ rest ∨ chainR s i i ≤ bs) →
      (innerLoop j2lenOld i rest newj2len (bi, bi, bs)).2.1 =
          (innerLoop j2lenOld i rest newj2len (bi, bi, bs)).2.2.1 ∧
        (innerLoop j2lenOld i rest newj2len (bi, bi, bs)).2.1 +
          (innerLoop j2lenOld i rest newj2len (bi, bi, bs)).2.2.2 ≤ s.length ∧
        bs ≤ (innerLoop j2lenOld i rest newj2len (bi, bi, bs)).2.2.2 ∧
        (∀ j ∈ rest, chainR s i j ≤
          (innerLoop j2lenOld i rest newj2len (bi, bi, bs)).2.2.2) ∧
        (∀ m, m < i → ∀ x, chainR s m x ≤
          (innerLoop j2lenOld i rest newj2len (bi, bi, bs)).2.2.2) ∧
        (∀ x, (innerLoop j2lenOld i rest newj2len (bi, bi, bs)).1 x =
          if x ∈ rest then chainR s i x else newj2len x) := by
  intro rest
  induction rest with
  | nil =>
      intro newj2len bi bs _ _ _ hbound hrows _
      refine ⟨rfl, hbound, le_refl _, ?_, hrows, ?_⟩
      · intro j hj; exact absurd hj (List.not_mem_nil j)
      · intro x; simp [innerLoop]
  | cons j rest' ih =>
      intro newj2len bi bs hmem hsort hk hbound hrows hii
      have hkj : (if j = 0 then 0 else j2lenOld (j - 1)) + 1 = chainR s i j :=
        hk j (List.mem_cons_self j rest')
      have hmemj : j ∈ b2jFun true s (s.getD i ' ') :=
        hmem j (List.mem_cons_self j rest')
      have hsort' : rest'.Pairwise (· < ·) := (List.pairwise_cons.mp hsort).2
      have hlt_all : ∀ x ∈ rest', j < x := (List.pairwise_cons.mp hsort).1
      show (innerLoop j2lenOld i (j :: rest') newj2len (bi, bi, bs)).2.1 = _ ∧ _
      rw [innerLoop]
      by_cases hcase : bs < (if j = 0 then 0 else j2lenOld (j - 1)) + 1
      · -- strict improvement: the improving j must be the diagonal index i
        have hji : j = i := by
          rcases Nat.lt_trichotomy j i with hji | hji | hji
          · exfalso
            have h1 : chainR s i j ≤ chainR s j j := by
              have := chainR_le_diag s i j
              rwa [Nat.min_eq_right (Nat.le_of_lt hji)] at this
            have h2 : chainR s j j ≤ bs := hrows j hji j
            omega
          · exact hji
          · exfalso
            have h1 : chainR s i j ≤ chainR s i i := by
              have := chainR_le_diag s i j
              rwa [Nat.min_eq_left (Nat.le_of_lt hji)] at this
            have h2 : chainR s i i ≤ bs := by
              rcases hii with hin | hb
              · rcases List.mem_cons.mp hin with h | h
                · omega
                · exact absurd hji (Nat.lt_asymm (hlt_all i h))
              · exact hb
            omega
        subst hji
        rw [if_pos hcase]
        have hilt : j < s.length := (mem_b2jFun hmemj).1
        have hkle : chainR s j j ≤ j + 1 := chainR_le_succ s j j
        have hres := ih (fun x => if x = j then
            (if j = 0 then 0 else j2lenOld (j - 1)) + 1 else newj2len x)
          (j + 1 - ((if j = 0 then 0 else j2lenOld (j - 1)) + 1))
          ((if j = 0 then 0 else j2lenOld (j - 1)) + 1)
          (fun x hx => hmem x (List.mem_cons_of_mem j hx)) hsort'
          (fun x hx => hk x (List.mem_cons_of_mem j hx))
          (by rw [hkj]; omega)
          (fun m hm x => le_trans (hrows m hm x) (by omega))
          (Or.inr (by rw [hkj]))
        refine ⟨hres.1, hres.2.1, ?_, ?_, hres.2.2.2.2.1, ?_⟩
        · exact le_trans (Nat.le_of_lt hcase) hres.2.2.1
        · intro x hx
          rcases List.mem_cons.mp hx with h | h
          · subst h
            exact le_trans (le_of_eq hkj.symm) hres.2.2.1
          · exact hres.2.2.2.1 x h
        · intro x
          rw [hres.2.2.2.2.2 x]
          by_cases hx : x ∈ rest'
          · simp [hx, List.mem_cons_of_mem j hx]
          · by_cases hxj : x = j
            · subst hxj
              simp [hx, hkj]
            · simp [hx, hxj]
      · -- no improvement
        rw [if_neg hcase]
        have hkle : chainR s i j ≤ bs := by omega
        have hres := ih (fun x => if x = j then
            (if j = 0 then 0 else j2lenOld (j - 1)) + 1 else newj2len x)
          bi bs
          (fun x hx => hmem x (List.mem_cons_of_mem j hx)) hsort'
          (fun x hx => hk x (List.mem_cons_of_mem j hx))
          hbound hrows
          (by
            rcases hii with hin | hb
            · rcases List.mem_cons.mp hin with h | h
              · subst h; exact Or.inr hkle
              · exact Or.inl h
            · exact Or.inr hb)
        refine ⟨hres.1, hres.2.1, hres.2.2.1, ?_, hres.2.2.2.2.1, ?_⟩
        · intro x hx
          rcases List.mem_cons.mp hx with h | h
          · subst h; exact le_trans hkle hres.2.2.1
          · exact hres.2.2.2.1 x h
        · intro x
          rw [hres.2.2.2.2.2 x]
          by_cases hx : x ∈ rest'
          · simp [hx, List.mem_cons_of_mem j hx]
          · by_cases hxj : x = j
            · subst hxj
              simp [hx, hkj]
            · simp [hx, hxj]

/-- Invariant of the outer `i` loop in the self-comparison: the best block
stays diagonal and inside the string. -/
theorem outerLoop_self_spec (s : List Char) :
    ∀ (len i : Nat) (j2len : Nat → Nat) (bi bs : Nat),
      i + len = s.length →
      (∀ x, j2len x = if i = 0 then 0 else chainR s (i - 1) x) →
      bi + bs ≤ s.length →
      (∀ m, m < i → ∀ x, chainR s m x ≤ bs) →
      (outerLoop s (b2jFun true s) 0 s.length (List.range' i len) j2len
          (bi, bi, bs)).1 =
        (outerLoop s (b2jFun true s) 0 s.length (List.range' i len) j2len
          (bi, bi, bs)).2.1 ∧
      (outerLoop s (b2jFun true s) 0 s.length (List.range' i len) j2len
          (bi, bi, bs)).1 +
        (outerLoop s (b2jFun true s) 0 s.length (List.range' i len) j2len
          (bi, bi, bs)).2.2 ≤ s.length := by
  intro len
  induction len with
  | zero =>
      intro i j2len bi bs _ _ hbound _
      exact ⟨rfl, hbound⟩
  | succ len ih =>
      intro i j2len bi bs hlen hj2 hbound hrows
      have hrange : List.range' i (len + 1) = i :: List.range' (i + 1) len :=
        List.range'_succ i len 1 ▸ rfl
      rw [hrange]
      show (outerLoop s (b2jFun true s) 0 s.length (i :: List.range' (i + 1) len)
          j2len (bi, bi, bs)).1 = _ ∧ _
      rw [outerLoop, jsRow_eq]
      have hk : ∀ j ∈ b2jFun true s (s.getD i ' '),
          (if j = 0 then 0 else j2len (j - 1)) + 1 = chainR s i j := by
        intro j hj
        cases i with
        | zero =>
            have hcj : chainR s 0 j = 1 := by rw [chainR_zero, if_pos hj]
            rw [hcj, hj2 (j - 1)]
            simp
        | succ m =>
            have hcj : chainR s (m + 1) j =
                (if j = 0 then 0 else chainR s m (j - 1)) + 1 := by
              rw [chainR_succ, if_pos hj]
            rw [hcj, hj2 (j - 1)]
            simp
      have hii : i ∈ b2jFun true s (s.getD i ' ') ∨ chainR s i i ≤ bs := by
        by_cases hmem : i ∈ b2jFun true s (s.getD i ' ')
        · exact Or.inl hmem
        · refine Or.inr ?_
          rw [chainR_of_not_mem hmem]
          omega
      have hinner := innerLoop_self_spec s i j2len
        (b2jFun true s (s.getD i ' ')) (fun _ => 0) bi bs
        (fun j hj => hj) (b2jFun_sorted s _) hk hbound hrows hii
      rcases hres : innerLoop j2len i (b2jFun true s (s.getD i ' '))
          (fun _ => 0) (bi, bi, bs) with ⟨new, best'⟩
      rw [hres] at hinner
      rcases hbt : best' with ⟨bi', bj', bs'⟩
      rw [hbt] at hinner
      have hdiag : bi' = bj' := hinner.1
      subst hdiag
      have happ := ih (i + 1) new bi' bs'
        (by omega)
        (by
          intro x
          have hpt := hinner.2.2.2.2.2 x
          simp only [] at hpt
          rw [hpt]
          by_cases hx : x ∈ b2jFun true s (s.getD i ' ')
          · rw [if_pos hx, if_neg (Nat.succ_ne_zero i), Nat.add_sub_cancel]
          · rw [if_neg hx, if_neg (Nat.succ_ne_zero i), Nat.add_sub_cancel,
              chainR_of_not_mem hx])
        hinner.2.1
        (by
          intro m hm x
          rcases Nat.lt_succ_iff_lt_or_eq.mp hm with h | h
          · exact hinner.2.2.2.2.1 m h x
          · subst h
            by_cases hx : x ∈ b2jFun true s (s.getD m ' ')
            · exact hinner.2.2.2.1 x hx
            · rw [chainR_of_not_mem hx]
              omega)
      exact happ

/-- The backward non-junk extension walks a diagonal block back to the
start of the full window. -/
theorem extendLow_self (s : List Char) :
    ∀ (fuel d t : Nat), d ≤ fuel →
      extendLow s s (fun _ => false) false 0 0 fuel (d, d, t) = (0, 0, t + d) := by
  intro fuel
  induction fuel with
  | zero =>
      intro d t hd
      have : d = 0 := Nat.le_zero.mp hd
      subst this
      rfl
  | succ fuel ih =>
      intro d t hd
      cases d with
      | zero =>
          show extendLow s s (fun _ => false) false 0 0 (fuel + 1) (0, 0, t) = _
          rw [extendLow, if_neg (by simp)]
          rfl
      | succ d' =>
          show extendLow s s (fun _ => false) false 0 0 (fuel + 1)
            (d' + 1, d' + 1, t) = _
          rw [extendLow, if_pos ⟨Nat.succ_pos d', Nat.succ_pos d', rfl, rfl⟩]
          rw [show d' + 1 - 1 = d' from rfl]
          rw [ih d' (t + 1) (Nat.le_of_succ_le_succ hd)]
          have hsum : t + 1 + d' = t + (d' + 1) := by omega
          rw [hsum]

/-- The forward non-junk extension grows a diagonal block at the window
start to the whole window. -/
theorem extendHigh_self (s : List Char) :
    ∀ (fuel u : Nat), u ≤ s.length → s.length - u ≤ fuel →
      extendHigh s s (fun _ => false) false s.length s.length fuel (0, 0, u) =
        (0, 0, s.length) := by
  intro fuel
  induction fuel with
  | zero =>
      intro u hu hfu
      have : u = s.length := by omega
      subst this
      rfl
  | succ fuel ih =>
      intro u hu hfu
      by_cases hult : u < s.length
      · show extendHigh s s (fun _ => false) false s.length s.length (fuel + 1)
          (0, 0, u) = _
        rw [extendHigh, if_pos ⟨by omega, by omega, rfl, rfl⟩]
        exact ih (u + 1) (by omega) (by omega)
      · have : u = s.length := by omega
        subst this
        show extendHigh s s (fun _ => false) false s.length s.length (fuel + 1)
          (0, 0, s.length) = _
        rw [extendHigh, if_neg (by simp)]

/-- With `isjunk=None` the junk extension loops never fire. -/
theorem extendLow_junk_noop (s : List Char) (alo blo : Nat) :
    ∀ (fuel : Nat) (st : Nat × Nat × Nat),
      extendLow s s (fun _ => false) true alo blo fuel st = st := by
  intro fuel st
  cases fuel with
  | zero => rfl
  | succ fuel =>
      rcases st with ⟨bi, bj, bs⟩
      rw [extendLow, if_neg (by simp)]

/-- With `isjunk=None` the junk extension loops never fire. -/
theorem extendHigh_junk_noop (s : List Char) (ahi bhi : Nat) :
    ∀ (fuel : Nat) (st : Nat × Nat × Nat),
      extendHigh s s (fun _ => false) true ahi bhi fuel st = st := by
  intro fuel st
  cases fuel with
  | zero => rfl
  | succ fuel =>
      rcases st with ⟨bi, bj, bs⟩
      rw [extendHigh, if_neg (by simp)]

/-- On the self-comparison `find_longest_match` returns the whole window. -/
theorem find_longest_match_self (s : List Char) :
    find_longest_match s s (fun _ => false) (b2jFun true s)
      0 s.length 0 s.length = (0, 0, s.length) := by
  have h0 := outerLoop_self_spec s s.length 0 (fun _ => 0) 0 0
    (Nat.zero_add _) (fun x => rfl) (by omega)
    (fun m hm => absurd hm (Nat.not_lt_zero m))
  rw [find_longest_match]
  rcases hb : outerLoop s (b2jFun true s) 0 s.length
      (List.range' 0 (s.length - 0)) (fun _ => 0) (0, 0, 0) with ⟨d, dj, t⟩
  rw [Nat.sub_zero] at hb
  rw [hb] at h0
  have hdj : d = dj := h0.1
  subst hdj
  have hdt : d + t ≤ s.length := h0.2
  show extendHigh s s (fun _ => false) true s.length s.length s.length
    (extendLow s s (fun _ => false) true 0 0
      (extendHigh s s (fun _ => false) false s.length s.length s.length
        (extendLow s s (fun _ => false) false 0 0
          (d, d, t).1 (d, d, t))).1
      (extendHigh s s (fun _ => false) false s.length s.length s.length
        (extendLow s s (fun _ => false) false 0 0
          (d, d, t).1 (d, d, t)))) = (0, 0, s.length)
  rw [show ((d, d, t) : Nat × Nat × Nat).1 = d from rfl]
  rw [extendLow_self s d d t (le_refl d)]
  rw [extendHigh_self s s.length (t + d) (by omega) (by omega)]
  rw [extendLow_junk_noop, extendHigh_junk_noop]

/-- On the self-comparison the ratio is exactly 1. -/
theorem ratioQ_self (l : List Char) : ratioQ l l = 1 := by
  unfold ratioQ
  by_cases h : l.length + l.length = 0
  · rw [if_pos h]
  · rw [if_neg h]
    have hn : l.length ≠ 0 := by omega
    have hm : matchesTotal l l (fun _ => false) (b2jFun true l) (l.length + 1)
        0 l.length 0 l.length = l.length := by
      rw [matchesTotal, find_longest_match_self]
      simp [hn]
    rw [hm, Rat.mkRat_eq_div]
    have hq : ((l.length + l.length : Nat) : ℚ) ≠ 0 := by
      rw [Nat.cast_ne_zero]
      omega
    push_cast
    rw [two_mul]
    rw [div_self]
    push_cast at hq
    exact hq

/-- Claim C5 counterexample: the similarity is not symmetric — the stdlib
matcher indexes only its second argument, so swapping the arguments can
change the block decomposition (2/3 versus 1/3 here). -/
theorem title_similarity_not_symmetric :
    title_similarity "ab" "bacb" ≠ title_similarity "bacb" "ab" := by decide

/-- Claim C5 amended: `similarity(a, a) = 1.0` for every title, and the
function is deterministic and side-effect free (it is a pure function of
its two arguments in this embedding); full symmetry fails in general. -/
theorem title_similarity_self_eq_one (a : String) :
    title_similarity a a = 1 := by
  unfold title_similarity
  exact ratioQ_self _

/-- Witness for the amended C5 at a concrete input. -/
theorem title_similarity_self_eq_one_witness :
    title_similarity "City approves broadband grant" "City approves broadband grant" = 1 :=
  title_similarity_self_eq_one "City approves broadband grant"

/-- Witness for the amended C6 at a concrete input. -/
theorem empty_normalized_titles_match_witness :
    title_similarity "[X]" "[Y] " = 1 ∧
      ∃ e ∈ (deduplicate_articles [⟨"https://u1.com", "[X]"⟩]
        [⟨"https://u2.com", "[Y] ", "2026-01-05", "news"⟩]).2,
        e.article = ⟨"https://u1.com", "[X]"⟩ :=
  empty_normalized_titles_match "[X]" "[Y] " (by decide) (by decide)
    [⟨"https://u1.com", "[X]"⟩]
    [⟨"https://u2.com", "[Y] ", "2026-01-05", "news"⟩]
    ⟨"https://u1.com", "[X]"⟩
    ⟨"https://u2.com", "[Y] ", "2026-01-05", "news"⟩
    (by decide) (by decide) rfl rfl (by decide) (by decide)

/-! ### find_active_events: membership and specificity sort -/

theorem insertByKey_perm (x : Int × PEvent) (l : List (Int × PEvent)) :
    (insertByKey x l).Perm (x :: l) := by
  induction l with
  | nil => exact List.Perm.refl _
  | cons y ys ih =>
      unfold insertByKey
      by_cases h : y.1 ≤ x.1
      · rw [if_pos h]
        exact (List.Perm.cons y ih).trans (List.Perm.swap x y ys)
      · rw [if_neg h]

theorem foldl_insertByKey_perm (l : List (Int × PEvent)) :
    ∀ acc, (List.foldl (fun acc x => insertByKey x acc) acc l).Perm (acc ++ l) := by
  induction l with
  | nil => intro acc; simp
  | cons x xs ih =>
      intro acc
      show (List.foldl (fun acc x => insertByKey x acc)
        (insertByKey x acc) xs).Perm (acc ++ x :: xs)
      have h1 := ih (insertByKey x acc)
      have h2 := (insertByKey_perm x acc).append_right xs
      have h3 : ((x :: acc) ++ xs).Perm (acc ++ x :: xs) := List.perm_middle.symm
      exact h1.trans (h2.trans h3)

theorem sortByKey_perm (l : List (Int × PEvent)) : (sortByKey l).Perm l := by
  have h := foldl_insertByKey_perm l []
  simpa [sortByKey] using h

theorem insertByKey_pairwise (x : Int × PEvent) (l : List (Int × PEvent))
    (h : l.Pairwise (fun p q => p.1 ≤ q.1)) :
    (insertByKey x l).Pairwise (fun p q => p.1 ≤ q.1) := by
  induction l with
  | nil => simp [insertByKey]
  | cons y ys ih =>
      rw [List.pairwise_cons] at h
      unfold insertByKey
      by_cases hle : y.1 ≤ x.1
      · rw [if_pos hle, List.pairwise_cons]
        refine ⟨?_, ih h.2⟩
        intro z hz
        rcases List.mem_cons.mp ((insertByKey_perm x ys).mem_iff.mp hz) with h1 | h1
        · subst h1; exact hle
        · exact h.1 z h1
      · rw [if_neg hle, List.pairwise_cons]
        refine ⟨?_, List.pairwise_cons.mpr h⟩
        intro z hz
        rcases List.mem_cons.mp hz with h1 | h1
        · subst h1; exact le_of_not_le hle
        · exact le_trans (le_of_not_le hle) (h.1 z h1)

theorem sortByKey_pairwise (l : List (Int × PEvent)) :
    (sortByKey l).Pairwise (fun p q => p.1 ≤ q.1) := by
  have haux : ∀ (l' : List (Int × PEvent)) (acc : List (Int × PEvent)),
      acc.Pairwise (fun p q => p.1 ≤ q.1) →
      (List.foldl (fun acc x => insertByKey x acc) acc l').Pairwise
        (fun p q => p.1 ≤ q.1) := by
    intro l'
    induction l' with
    | nil => intro acc hacc; exact hacc
    | cons x xs ih => intro acc hacc; exact ih _ (insertByKey_pairwise x acc hacc)
  exact haux l [] List.Pairwise.nil

theorem eventKeyOf_none_left (today : PyDate) (la : Int) (ev : PEvent)
    (hs : parseEventDate today.year ev.start_date = none) :
    eventKeyOf today la ev = none := by
  unfold eventKeyOf
  rw [hs]

theorem eventKeyOf_none_right (today : PyDate) (la : Int) (ev : PEvent)
    (he : parseEventDate today.year ev.end_date = none) :
    eventKeyOf today la ev = none := by
  unfold eventKeyOf
  rw [he]
  cases parseEventDate today.year ev.start_date <;> rfl

theorem eventKeyOf_some (today : PyDate) (la : Int) (ev : PEvent)
    (so eo : Nat)
    (hs : parseEventDate today.year ev.start_date = some so)
    (he : parseEventDate today.year ev.end_date = some eo) :
    eventKeyOf today la ev =
      (if (so : Int) ≤ today.ord ∧ today.ord ≤ (eo : Int) then
        some ((eo : Int) - (so : Int), ev)
      else if 0 < (so : Int) - today.ord ∧ (so : Int) - today.ord ≤ la then
        some ((eo : Int) - (so : Int), ev)
      else none) := by
  unfold eventKeyOf
  rw [hs, he]

/-- Membership in the pre-sort candidate list of `find_active_events`. -/
theorem mem_activeWithKeys (today : PyDate) (events : List PEvent) (la : Int)
    (k : Int) (ev : PEvent) :
    (k, ev) ∈ activeWithKeys today events la ↔
      ev ∈ events ∧ ∃ so eo,
        parseEventDate today.year ev.start_date = some so ∧
        parseEventDate today.year ev.end_date = some eo ∧
        k = (eo : Int) - (so : Int) ∧
        (((so : Int) ≤ today.ord ∧ today.ord ≤ (eo : Int)) ∨
          (0 < (so : Int) - today.ord ∧ (so : Int) - today.ord ≤ la)) := by
  unfold activeWithKeys
  rw [List.mem_filterMap]
  constructor
  · rintro ⟨a, ha, hfa⟩
    rcases hs : parseEventDate today.year a.start_date with _ | so
    · rw [eventKeyOf_none_left today la a hs] at hfa
      exact absurd hfa (by simp)
    rcases he : parseEventDate today.year a.end_date with _ | eo
    · rw [eventKeyOf_none_right today la a he] at hfa
      exact absurd hfa (by simp)
    rw [eventKeyOf_some today la a so eo hs he] at hfa
    by_cases hact : (so : Int) ≤ today.ord ∧ today.ord ≤ (eo : Int)
    · rw [if_pos hact] at hfa
      have h := Option.some.inj hfa
      have hk : (eo : Int) - (so : Int) = k := congrArg Prod.fst h
      have hev : a = ev := congrArg Prod.snd h
      subst hev
      exact ⟨ha, so, eo, hs, he, hk.symm, Or.inl hact⟩
    · rw [if_neg hact] at hfa
      by_cases hup : 0 < (so : Int) - today.ord ∧ (so : Int) - today.ord ≤ la
      · rw [if_pos hup] at hfa
        have h := Option.some.inj hfa
        have hk : (eo : Int) - (so : Int) = k := congrArg Prod.fst h
        have hev : a = ev := congrArg Prod.snd h
        subst hev
        exact ⟨ha, so, eo, hs, he, hk.symm, Or.inr hup⟩
      · rw [if_neg hup] at hfa
        exact absurd hfa (by simp)
  · rintro ⟨hev, so, eo, hs, he, hk, hcond⟩
    refine ⟨ev, hev, ?_⟩
    rw [eventKeyOf_some today la ev so eo hs he]
    rcases hcond with hact | hup
    · rw [if_pos hact, hk]
    · have hnact : ¬ ((so : Int) ≤ today.ord ∧ today.ord ≤ (eo : Int)) := by
        intro hact
        omega
      rw [if_neg hnact, if_pos hup, hk]

/-- The sort key attached by `activeWithKeys` is the event's duration. -/
theorem activeWithKeys_key (today : PyDate) (events : List PEvent) (la : Int)
    (k : Int) (ev : PEvent) (h : (k, ev) ∈ activeWithKeys today events la) :
    k = eventDuration today.year ev := by
  obtain ⟨_, so, eo, hs, he, hk, _⟩ := (mem_activeWithKeys today events la k ev).mp h
  rw [eventDuration, hs, he, hk]

/-- Claim C8: `find_active_events` returns exactly the events that are
active today (both endpoints inclusive) or upcoming within the lookahead
window, sorted by range duration `(end - start).days` ascending; on the
concrete fixture a 1-day event precedes an 89-day seasonal event active on
the same date even though it was listed second. -/
theorem find_active_events_spec (today : PyDate) (events : List PEvent)
    (la : Int) :
    (∀ ev, ev ∈ find_active_events today events la ↔
      (ev ∈ events ∧ ∃ so eo,
        parseEventDate today.year ev.start_date = some so ∧
        parseEventDate today.year ev.end_date = some eo ∧
        (((so : Int) ≤ today.ord ∧ today.ord ≤ (eo : Int)) ∨
          (0 < (so : Int) - today.ord ∧ (so : Int) - today.ord ≤ la)))) ∧
    (find_active_events today events la).Pairwise
      (fun e1 e2 => eventDuration today.year e1 ≤ eventDuration today.year e2) ∧
    find_active_events ⟨2026, 6, 15⟩ [exampleSeasonEvent, exampleDayEvent] 7 =
      [exampleDayEvent, exampleSeasonEvent] := by
  refine ⟨?_, ?_, by decide⟩
  · intro ev
    unfold find_active_events
    rw [List.mem_map]
    constructor
    · rintro ⟨p, hp, hpe⟩
      have hmem := (sortByKey_perm _).mem_iff.mp hp
      rcases p with ⟨k, ev'⟩
      obtain ⟨hev, so, eo, hs, he, _, hcond⟩ :=
        (mem_activeWithKeys today events la k ev').mp hmem
      subst hpe
      exact ⟨hev, so, eo, hs, he, hcond⟩
    · rintro ⟨hev, so, eo, hs, he, hcond⟩
      refine ⟨((eo : Int) - (so : Int), ev), ?_, rfl⟩
      refine (sortByKey_perm _).mem_iff.mpr ?_
      exact (mem_activeWithKeys today events la _ ev).mpr
        ⟨hev, so, eo, hs, he, rfl, hcond⟩
  · unfold find_active_events
    rw [List.pairwise_map]
    have hsorted := sortByKey_pairwise (activeWithKeys today events la)
    refine hsorted.imp_of_mem ?_
    intro p q hp hq hle
    have hpk := activeWithKeys_key today events la p.1 p.2
      ((sortByKey_perm _).mem_iff.mp hp)
    have hqk := activeWithKeys_key today events la q.1 q.2
      ((sortByKey_perm _).mem_iff.mp hq)
    rw [← hpk, ← hqk]
    exact hle

/-- Witness for C8: the concrete two-event instance extracted from the
theorem. -/
theorem find_active_events_spec_witness :
    find_active_events ⟨2026, 6, 15⟩ [exampleSeasonEvent, exampleDayEvent] 7 =
      [exampleDayEvent, exampleSeasonEvent] :=
  (find_active_events_spec ⟨2026, 6, 15⟩ [] 0).2.2

/-! ### Rotation state and the selectors -/

theorem stateSet_find_self (k : String) (v : Int) :
    ∀ st : RotState, (stateSet k v st).find? (fun p => p.1 = k) = some (k, v) := by
  intro st
  induction st with
  | nil =>
      show List.find? (fun p => p.1 = k) [(k, v)] = some (k, v)
      rw [List.find?_cons_of_pos _ (by simp)]
  | cons p rest ih =>
      rcases p with ⟨k0, w⟩
      by_cases h : k0 = k
      · rw [stateSet, if_pos h, List.find?_cons_of_pos _ (by simp)]
      · rw [stateSet, if_neg h, List.find?_cons_of_neg _ (by simp [h])]
        exact ih

theorem stateSet_find_other (k : String) (v : Int) (k' : String) (hne : k' ≠ k) :
    ∀ st : RotState,
      (stateSet k v st).find? (fun p => p.1 = k') = st.find? (fun p => p.1 = k') := by
  intro st
  have hkk' : (decide (k = k')) = false := by
    simp only [decide_eq_false_iff_not]
    exact fun hh => hne hh.symm
  induction st with
  | nil =>
      show List.find? (fun p => p.1 = k') [(k, v)] = List.find? (fun p => p.1 = k') []
      rw [List.find?_cons_of_neg _ (by simpa using hkk')]
  | cons p rest ih =>
      rcases p with ⟨k0, w⟩
      by_cases h : k0 = k
      · rw [stateSet, if_pos h]
        rw [List.find?_cons_of_neg _ (by simpa using hkk'),
          List.find?_cons_of_neg _ (by simp [h]; exact fun hh => hne hh.symm)]
      · rw [stateSet, if_neg h]
        by_cases hk : k0 = k'
        · rw [List.find?_cons_of_pos _ (by simp [hk]),
            List.find?_cons_of_pos _ (by simp [hk])]
        · rw [List.find?_cons_of_neg _ (by simp [hk]),
            List.find?_cons_of_neg _ (by simp [hk])]
          exact ih

/-- Claim C10: on a non-empty roster, when the rotation state has no entry
for the weekday (in particular the empty state loaded when the state file
is absent), `round_robin_select` returns the first roster entry, records
index 0 for that weekday, and leaves every other key of the state
unchanged. -/
theorem round_robin_select_fresh_weekday (weekday : Nat)
    (roster : List (String × Org)) (state : RotState)
    (hne : roster ≠ [])
    (hmiss : state.find? (fun p => p.1 = toString weekday) = none) :
    round_robin_select weekday roster state =
      ((roster.headD ("", ⟨"", "", "", none, [], []⟩)).1,
       (roster.headD ("", ⟨"", "", "", none, [], []⟩)).2,
       stateSet (toString weekday) 0 state) ∧
    stateGet (toString weekday) (-1)
      (round_robin_select weekday roster state).2.2 = 0 ∧
    ∀ k, k ≠ toString weekday →
      (round_robin_select weekday roster state).2.2.find? (fun p => p.1 = k) =
        state.find? (fun p => p.1 = k) := by
  have hget : stateGet (toString weekday) (-1) state = -1 := by
    rw [stateGet, hmiss]
    rfl
  have hsel : round_robin_select weekday roster state =
      ((roster.headD ("", ⟨"", "", "", none, [], []⟩)).1,
       (roster.headD ("", ⟨"", "", "", none, [], []⟩)).2,
       stateSet (toString weekday) 0 state) := by
    rw [round_robin_select, hget]
    have hmod : (-1 + 1 : Int) % (roster.length : Int) = 0 := by
      have : (-1 + 1 : Int) = 0 := by decide
      rw [this]
      exact Int.zero_emod _
    rw [hmod]
    rcases roster with _ | ⟨p, rest⟩
    · exact absurd rfl hne
    · rfl
  refine ⟨hsel, ?_, ?_⟩
  · rw [hsel]
    show stateGet (toString weekday) (-1) (stateSet (toString weekday) 0 state) = 0
    rw [stateGet, stateSet_find_self]
    rfl
  · intro k hk
    rw [hsel]
    exact stateSet_find_other (toString weekday) 0 k hk state

/-- Witness for C10 at a concrete input: empty entry for Friday (4), an
unrelated Monday entry is preserved. -/
theorem round_robin_select_fresh_weekday_witness :
    round_robin_select 4
      [("a", ⟨"A", "A", "", none, [4], []⟩), ("b", ⟨"B", "B", "", none, [4], []⟩)]
      [("0", 2)] =
      ("a", ⟨"A", "A", "", none, [4], []⟩, [("0", 2), ("4", 0)]) ∧
    stateGet "4" (-1)
      (round_robin_select 4
        [("a", ⟨"A", "A", "", none, [4], []⟩), ("b", ⟨"B", "B", "", none, [4], []⟩)]
        [("0", 2)]).2.2 = 0 ∧
    ∀ k, k ≠ "4" →
      (round_robin_select 4
        [("a", ⟨"A", "A", "", none, [4], []⟩), ("b", ⟨"B", "B", "", none, [4], []⟩)]
        [("0", 2)]).2.2.find? (fun p => p.1 = k) =
        ([("0", 2)] : RotState).find? (fun p => p.1 = k) :=
  round_robin_select_fresh_weekday 4
    [("a", ⟨"A", "A", "", none, [4], []⟩), ("b", ⟨"B", "B", "", none, [4], []⟩)]
    [("0", 2)] (by decide) (by decide)

/-- Claim C1 (code versus spec/tests): the source `round_robin_select`
takes no `today`/`min_days` inputs and consults no `last_aired` map — it
just advances the per-weekday index.  On the failing input of the repo's
own test `test_skips_recently_aired_org` (roster a, b, c; index 0 last
used; "b" aired 3 days ago, cooldown 7) the claim and test require "c",
but the code selects "b". -/
theorem round_robin_select_has_no_cooldown :
    (round_robin_select 4
      [("a", ⟨"A", "A", "", none, [4], []⟩),
       ("b", ⟨"B", "B", "", none, [4], []⟩),
       ("c", ⟨"C", "C", "", none, [4], []⟩)]
      [("4", 0)]).1 = "b" ∧ ("b" : String) ≠ "c" := by decide

/-- Claim C2: whenever event matching succeeds, `select_psa` returns the
event-sourced selection and the persisted rotation state is returned
untouched (the rotation branch, the only writer, is not reached). -/
theorem select_psa_event_path_preserves_state
    (today : PyDate) (organizations : List (String × Org)) (events : List PEvent)
    (state : RotState) (m : String × Org × String)
    (hroster : get_orgs_for_weekday today.weekday organizations ≠ [])
    (hmatch : match_event_to_roster (find_active_events today events)
      ((get_orgs_for_weekday today.weekday organizations).map (·.1))
      organizations = some m) :
    select_psa today organizations events state =
      (some (mkSelection m.1 m.2.1 (some m.2.2)
        (findEventName (find_active_events today events) m.1) "event"), state) ∧
    ∀ r, (select_psa today organizations events state).1 = some r →
      r.source = "event" := by
  have hsel : select_psa today organizations events state =
      (some (mkSelection m.1 m.2.1 (some m.2.2)
        (findEventName (find_active_events today events) m.1) "event"), state) := by
    simp only [select_psa]
    rw [if_neg hroster, hmatch]
  refine ⟨hsel, ?_⟩
  intro r hr
  rw [hsel] at hr
  obtain rfl := Option.some.inj hr
  rfl

/-- Witness for C2: Earth Day 2026 (a Wednesday) matches the Wednesday
roster organization, and the rotation state comes back unchanged. -/
theorem select_psa_event_path_preserves_state_witness :
    select_psa ⟨2026, 4, 22⟩
      [("scout-island",
        ⟨"Scout Island Nature Centre", "Scout Island", "Nature education",
          some "scoutisland.ca", [2], []⟩)]
      [⟨"Earth Day", "04-22", "04-22", some "scout-island", [], false,
        "Happy Earth Day."⟩]
      [("2", 0)] =
      (some (mkSelection "scout-island"
        ⟨"Scout Island Nature Centre", "Scout Island", "Nature education",
          some "scoutisland.ca", [2], []⟩
        (some "Happy Earth Day.")
        (findEventName (find_active_events ⟨2026, 4, 22⟩
          [⟨"Earth Day", "04-22", "04-22", some "scout-island", [], false,
            "Happy Earth Day."⟩]) "scout-island")
        "event"), [("2", 0)]) ∧
    ∀ r, (select_psa ⟨2026, 4, 22⟩
      [("scout-island",
        ⟨"Scout Island Nature Centre", "Scout Island", "Nature education",
          some "scoutisland.ca", [2], []⟩)]
      [⟨"Earth Day", "04-22", "04-22", some "scout-island", [], false,
        "Happy Earth Day."⟩]
      [("2", 0)]).1 = some r → r.source = "event" :=
  select_psa_event_path_preserves_state ⟨2026, 4, 22⟩
    [("scout-island",
      ⟨"Scout Island Nature Centre", "Scout Island", "Nature education",
        some "scoutisland.ca", [2], []⟩)]
    [⟨"Earth Day", "04-22", "04-22", some "scout-island", [], false,
      "Happy Earth Day."⟩]
    [("2", 0)]
    ("scout-island",
      ⟨"Scout Island Nature Centre", "Scout Island", "Nature education",
        some "scoutisland.ca", [2], []⟩, "Happy Earth Day.")
    (by decide) (by decide)

end CPG
